import Mathlib

/-!
Verification of the rule-engine core of the repository
(`backend/apps/rca/rule_engine/core/`): intent recognition strategies,
result fusion, slot filling, configuration loading, and the
satellite-anomaly run-length classifier.

Python dictionaries are modelled as association lists in insertion
order (`dlookup` returns the value of the first matching key, which is
the unique one for lists built by dict operations).  Python `float`
confidences are modelled as rational numbers.  Regular-expression
searching and the pluggable LLM collaborator are modelled as oracle
functions supplied as parameters, since their internals are outside the
rule-engine code.  String lowering, stripping and substring search are
modelled structurally over the character list of the string.
-/

/-- Lookup in a Python-dict model: value of the first pair with the key. -/
def dlookup (m : List (String × String)) (k : String) : Option String :=
  (m.find? (fun p => p.1 == k)).map Prod.snd

/-- Python `d[k] = v`: replace the value in place if the key exists, else append. -/
def dinsert (m : List (String × String)) (k v : String) : List (String × String) :=
  if (dlookup m k).isSome then
    m.map (fun p => if p.1 == k then (p.1, v) else p)
  else
    m ++ [(k, v)]

/-- Python `d.update(new)`: keys from `new` replace existing values, new keys append. -/
def dupdate (m news : List (String × String)) : List (String × String) :=
  news.foldl (fun acc p => dinsert acc p.1 p.2) m

/-- Python `d.setdefault(k, v)`: insert only if the key is absent. -/
def dsetdefault (m : List (String × String)) (k v : String) : List (String × String) :=
  if (dlookup m k).isSome then m else m ++ [(k, v)]

/-- Containment of one character list in another, modelling Python `in`
on strings: some prefix position of the haystack starts the needle. -/
def listIsInfix (needle : List Char) : List Char → Bool
  | [] => needle.isEmpty
  | c :: rest => needle.isPrefixOf (c :: rest) || listIsInfix needle rest

/-- Model of Python `str.lower()`. -/
def strLower (s : String) : String := String.mk (s.data.map Char.toLower)

/-- Model of Python `str.strip()`: drop whitespace at both ends. -/
def strStrip (s : String) : String :=
  String.mk (((s.data.dropWhile Char.isWhitespace).reverse.dropWhile Char.isWhitespace).reverse)

/-- `kw.lower() in text_lower` from `keyword_matcher.py` (the text is
already lowered by the caller). -/
def strContains (textLower kw : String) : Bool :=
  listIsInfix (strLower kw).data textLower.data

/-- Values stored in the diagnostic `raw_matches` mapping of a result:
plain strings, or the per-intent score table of the keyword matcher. -/
inductive RawVal where
  | str (s : String)
  | scores (m : List (String × ℚ))
deriving DecidableEq

/-- `IntentResult` from `rule_engine.py`: the one value type crossing
component boundaries.  Confidence is modelled as a rational. -/
structure IntentResult where
  intent : String
  confidence : ℚ
  recognizer : String
  slots : List (String × String) := []
  raw_matches : List (String × RawVal) := []
  metadata : List (String × String) := []
deriving DecidableEq, Inhabited

/-- One slot spec of an intent definition in `intents.json`. -/
structure SlotDef where
  name : String
  required : Bool
deriving DecidableEq, Inhabited

/-- One intent definition in `intents.json`. -/
structure IntentDef where
  name : String
  slots : List SlotDef
deriving DecidableEq, Inhabited

/-- The parsed content of `intents.json` as held by `ConfigManager`. -/
structure IntentsConf where
  intents : List IntentDef
  unknown_intent : Option String
deriving DecidableEq, Inhabited

/-- `ConfigManager.get_intent_def`: first intent definition with the name. -/
def getIntentDef (cfg : IntentsConf) (intentName : String) : Option IntentDef :=
  cfg.intents.find? (fun item => item.name == intentName)

/-- `ConfigManager.get_intent_slots`: slot specs of the intent, `[]` if unknown. -/
def getIntentSlots (cfg : IntentsConf) (intentName : String) : List SlotDef :=
  match getIntentDef cfg intentName with
  | none => []
  | some d => d.slots

/-- `ConfigManager.get_unknown_intent_name`: configured sentinel, default `"unknown"`. -/
def getUnknownIntentName (cfg : IntentsConf) : String :=
  cfg.unknown_intent.getD "unknown"

/-- One keyword rule of `keywords.json`. -/
structure KwConf where
  keywords : List String
  must_keywords : List String
  exclude_keywords : List String
  weight : ℚ
deriving DecidableEq, Inhabited

/-- `KeywordMatcher._score_intent`, translated with its early returns. -/
def scoreIntent (text : String) (conf : KwConf) : ℚ :=
  let textLower := strLower text
  if conf.exclude_keywords.any (fun kw => strContains textLower kw) then 0
  else if conf.must_keywords.any (fun kw => !strContains textLower kw) then 0
  else if conf.keywords.isEmpty then 0
  else
    let hit : ℚ := ((conf.keywords.filter (fun kw => strContains textLower kw)).length : ℚ)
    if hit = 0 then 0
    else min (hit / (conf.keywords.length : ℚ) * conf.weight) 0.85

/-- The accumulator loop of `KeywordMatcher.parse`: start from
`(None, 0.0)` and replace only on a strictly greater score. -/
def selLoop (scores : List (String × ℚ)) (st : Option String × ℚ) : Option String × ℚ :=
  scores.foldl (fun b p => if b.2 < p.2 then (some p.1, p.2) else b) st

/-- `KeywordMatcher.parse`: score every intent of the keyword rule set in
order, pick the best by strict improvement, return `none` when the rule
set is empty, the best score is not positive, or the best intent name is
falsy (the empty string). -/
def keywordParse (kwConf : List (String × KwConf)) (text : String) : Option IntentResult :=
  if kwConf.isEmpty then none
  else
    let rawScores := kwConf.foldl
      (fun acc p => acc ++ [(p.1, scoreIntent text p.2)]) []
    let best := selLoop rawScores (none, 0)
    match best.1 with
    | none => none
    | some bi =>
      if bi = "" then none
      else if best.2 ≤ 0 then none
      else some
        { intent := bi, confidence := best.2, recognizer := "keyword",
          slots := [], raw_matches := [("scores", RawVal.scores rawScores)],
          metadata := [] }

/-- `FSMProcessor.parse`: continuation recognizer.  The `last_intent`
context entry is modelled as an `Option String` (`none` when unset);
Python truthiness makes the empty string count as unset. -/
def fsmParse (lastIntent : Option String) (text : String) : Option IntentResult :=
  match lastIntent with
  | none => none
  | some li =>
    if li ≠ "" ∧ (strStrip text).length < 10 then
      some { intent := li, confidence := 2/5, recognizer := "fsm",
             slots := [], raw_matches := [("source", RawVal.str "last_intent")],
             metadata := [("fsm_reason", "continue_last_intent")] }
    else none

/-- Python `max(results, key=lambda r: r.confidence)`: fold keeping the
current best, replacing only on strictly greater confidence, so the
first element attaining the maximum wins. -/
def pyMax (l : List IntentResult) : IntentResult :=
  match l with
  | [] => default
  | r :: rest => rest.foldl (fun best x => if best.confidence < x.confidence then x else best) r

/-- `RuleEngine._build_unknown_result`. -/
def buildUnknownResult (cfg : IntentsConf) (reason : String) : IntentResult :=
  { intent := getUnknownIntentName cfg, confidence := 0, recognizer := "system",
    slots := [], raw_matches := [], metadata := [("reason", reason)] }

/-- `RuleEngine._fuse_results`: regex priority short-circuit at
confidence 0.8, otherwise highest confidence overall, unknown sentinel
for an empty list. -/
def fuseResults (cfg : IntentsConf) (results : List IntentResult) : IntentResult :=
  if results.isEmpty then buildUnknownResult cfg "no_valid_result"
  else
    let regexResults := results.filter (fun r => r.recognizer == "regex")
    if ¬ regexResults.isEmpty ∧ (4/5 : ℚ) ≤ (pyMax regexResults).confidence then
      let bestRegex := pyMax regexResults
      { bestRegex with
        metadata := dsetdefault bestRegex.metadata "fusion_reason" "regex_confidence_over_0.8" }
    else
      let bestOverall := pyMax results
      { bestOverall with
        metadata := dsetdefault bestOverall.metadata "fusion_reason" "max_confidence" }

/-- A regular-expression match: the named groups that participated and
the whole matched text (`group(0)`). -/
structure MatchRes where
  groups : List (String × String)
  whole : String
deriving DecidableEq, Inhabited

/-- Oracle for `pattern.search(text)`: pattern source, text, maybe a match. -/
abbrev SearchFn := String → String → Option MatchRes

/-- Oracle for `BaseLLMSlotFiller.fill_missing_slots(text, intent, slots)`.
Returns `none` when the call times out, raises, or returns a non-dict —
the three silently degraded cases of `_fill_slots_via_llm`. -/
abbrev LlmFn := String → String → List (String × String) → Option (List (String × String))

/-- Pattern list of one slot in `_slot_patterns`, with Python `get(name, [])`. -/
def plookup (m : List (String × List String)) (k : String) : List String :=
  ((m.find? (fun p => p.1 == k)).map Prod.snd).getD []

/-- One iteration of the regex pass of `SlotFiller.fill_slots`: skip a
falsy slot name, skip a slot that already has a value, else try the
patterns of the slot in order and keep the first match, preferring the
named capture group over the whole match. -/
def regexFillStep (slotPatterns : List (String × List String)) (search : SearchFn)
    (originalText : String) (slots : List (String × String)) (sd : SlotDef) :
    List (String × String) :=
  if sd.name = "" then slots
  else if (dlookup slots sd.name).isSome then slots
  else
    match (plookup slotPatterns sd.name).findSome? (fun p => search p originalText) with
    | none => slots
    | some m =>
      match dlookup m.groups sd.name with
      | some v => dinsert slots sd.name v
      | none => dinsert slots sd.name m.whole

/-- The LLM fallback of `SlotFiller.fill_slots` together with
`SlotFiller._fill_slots_via_llm`: invoked only when a required slot is
still missing; a timeout, exception or non-dict return (`none` of the
oracle) degrades silently; a returned mapping is merged with
`dict.update`. -/
def llmPass (llm : Option LlmFn) (slotsDef : List SlotDef) (originalText intentName : String)
    (slots1 : List (String × String)) : List (String × String) :=
  match llm with
  | none => slots1
  | some f =>
    if ((slotsDef.filter (fun sd => sd.required && (dlookup slots1 sd.name).isNone)).isEmpty) then
      slots1
    else
      match f originalText intentName slots1 with
      | none => slots1
      | some newSlots => dupdate slots1 newSlots

/-- `SlotFiller.fill_slots`: regex pass over the declared slot specs in
order, then the optional LLM fallback. -/
def fillSlots (cfg : IntentsConf) (slotPatterns : List (String × List String))
    (search : SearchFn) (llm : Option LlmFn) (result : IntentResult)
    (originalText : String) : IntentResult :=
  let slotsDef := getIntentSlots cfg result.intent
  if slotsDef.isEmpty then result
  else
    { result with slots :=
        (llmPass llm slotsDef originalText result.intent
          (slotsDef.foldl (regexFillStep slotPatterns search originalText) result.slots)) }

/-- Outcome of one recognizer future in `RuleEngine._run_recognizers`:
a result, a `None` return, a timeout, or a raised exception. -/
inductive RecOutcome where
  | ok (r : IntentResult)
  | noResult
  | timeout
  | raised
deriving DecidableEq, Inhabited

/-- `RuleEngine._run_recognizers`: collect, in registration order, the
results of the recognizers that completed with a non-`None` result;
timeouts and exceptions are logged and dropped. -/
def runRecognizers (outcomes : List RecOutcome) : List IntentResult :=
  outcomes.filterMap (fun o =>
    match o with
    | RecOutcome.ok r => some r
    | _ => none)

/-- `RuleEngine.process` with an empty context: dispatch (modelled by the
outcome list), fusion, then the default slot filler. -/
def processModel (cfg : IntentsConf) (slotPatterns : List (String × List String))
    (search : SearchFn) (llm : Option LlmFn) (outcomes : List RecOutcome)
    (text : String) : IntentResult :=
  fillSlots cfg slotPatterns search llm (fuseResults cfg (runRecognizers outcomes)) text

/-- State of one configuration file on disk: present but unparseable, or
present with parsed content (content kept abstract as key/value pairs). -/
inductive FileContent where
  | malformed
  | valid (v : List (String × String))
deriving DecidableEq, Inhabited

/-- Directory-listing lookup. -/
def flookup (files : List (String × FileContent)) (k : String) : Option FileContent :=
  (files.find? (fun p => p.1 == k)).map Prod.snd

/-- `ConfigManager._load_json`: a missing directory or file yields `{}`
with a warning; `json.load` on a malformed file raises (`Except.error`). -/
def loadJson (dir : Option (List (String × FileContent))) (filename : String) :
    Except Unit (List (String × String)) :=
  match dir with
  | none => Except.ok []
  | some files =>
    match flookup files filename with
    | none => Except.ok []
    | some FileContent.malformed => Except.error ()
    | some (FileContent.valid v) => Except.ok v

/-- The rule store built by `ConfigManager._load_all`. -/
structure ConfigState where
  intents : List (String × String)
  keywords : List (String × String)
  regex_patterns : List (String × String)
  cache : List (String × List (String × String))
deriving DecidableEq, Inhabited

/-- The glob loop of `ConfigManager._load_all`: load every JSON file of
the directory listing into the cache, in listing order; a raised parse
error stops the loop and propagates. -/
def cacheFold (files : List (String × FileContent))
    (acc : List (String × List (String × String))) (fl : List (String × FileContent)) :
    Except Unit (List (String × List (String × String))) :=
  fl.foldlM (fun acc p => do
    let v ← loadJson (some files) p.1
    Except.ok (acc ++ [(p.1, v)])) acc

/-- `ConfigManager._load_all`: load the three fixed files, then glob the
directory and load every JSON file into the cache; any raised parse
error propagates out of engine construction. -/
def loadAll (dir : Option (List (String × FileContent))) : Except Unit ConfigState := do
  let intents ← loadJson dir "intents.json"
  let keywords ← loadJson dir "keywords.json"
  let regexPatterns ← loadJson dir "regex_patterns.json"
  match dir with
  | none => Except.ok ⟨intents, keywords, regexPatterns, []⟩
  | some files =>
    let cache ← cacheFold files [] files
    Except.ok ⟨intents, keywords, regexPatterns, cache⟩

/-- The value of one segment key of an anomaly record in
`XwCustomSlotFiller`: times may be absent, `satellites` is `None` or a
dict modelled by its key list. -/
structure SegValue where
  start_time : Option String
  end_time : Option String
  satellites : Option (List String)
deriving DecidableEq, Inhabited

/-- One anomaly record: a Python dict segment-name to value, in
insertion order; the classifier only reads the first item and may meet
an empty dict. -/
abbrev XwRecord := List (String × SegValue)

/-- Python `str(x)` applied to a possibly-`None` time value. -/
def strOpt : Option String → String
  | none => "None"
  | some s => s

/-- The stop test of `_find_same_satellite_end` on one record item:
no satellites, satellite count different from one, or another name. -/
def breaksRun (satelliteName : String) (v : SegValue) : Bool :=
  match v.satellites with
  | none => true
  | some sats => sats.length != 1 || sats.headD "" != satelliteName

/-- A record stops the run when any of its items stops it. -/
def recordBreaksRun (satelliteName : String) (r : XwRecord) : Bool :=
  r.any (fun p => breaksRun satelliteName p.2)

/-- The `while` loop of `_find_same_satellite_end`, recursing over the
suffix of the batch that starts at index `i`. -/
def findEndGo (satelliteName : String) : List XwRecord → Nat → Nat
  | [], i => i - 1
  | r :: rest, i =>
    if recordBreaksRun satelliteName r then i - 1
    else findEndGo satelliteName rest (i + 1)

/-- `XwCustomSlotFiller._find_same_satellite_end`: last index of the
run of consecutive records staying on the same single satellite. -/
def findSameSatelliteEnd (data : List XwRecord) (startIdx : Nat) (satelliteName : String) : Nat :=
  findEndGo satelliteName (data.drop (startIdx + 1)) (startIdx + 1)

/-- `XwCustomSlotFiller._classify_single_satellite`: `true` stands for
`"multi_pass_long_time"` — some item of the next record names exactly
the same single satellite. -/
def classifySingleSatellite (data : List XwRecord) (currentIdx : Nat) (satelliteName : String) : Bool :=
  match data[currentIdx + 1]? with
  | none => false
  | some nextRecord =>
    nextRecord.any (fun p =>
      match p.2.satellites with
      | none => false
      | some sats => !sats.isEmpty && sats.length == 1 && sats.headD "" == satelliteName)

/-- Entry of the multi-pass bucket, from `_extract_multi_pass_info`. -/
structure MultiPassInfo where
  satellite : String
  start_time : String
  end_time : String
  pass_count : Nat
deriving DecidableEq, Inhabited

/-- Entry of the single-pass bucket, from `_extract_single_pass_info`. -/
structure SinglePassInfo where
  satellite : String
  start_time : String
  end_time : String
deriving DecidableEq, Inhabited

/-- Entry of the multi-satellite bucket. -/
structure MultiSatInfo where
  satellites : List String
  start_time : String
  end_time : String
  note : String
deriving DecidableEq, Inhabited

/-- `start_time` of the first item of a record (`None` for an empty dict). -/
def recStartTime (r : XwRecord) : Option String :=
  match r with
  | [] => none
  | p :: _ => p.2.start_time

/-- `end_time` of the first item of a record. -/
def recEndTime (r : XwRecord) : Option String :=
  match r with
  | [] => none
  | p :: _ => p.2.end_time

/-- `XwCustomSlotFiller._extract_multi_pass_info`. -/
def extractMultiPassInfo (data : List XwRecord) (startIdx endIdx : Nat)
    (satelliteName : String) : MultiPassInfo :=
  ⟨satelliteName, strOpt (recStartTime (data.getD startIdx [])),
    strOpt (recEndTime (data.getD endIdx [])), endIdx - startIdx + 1⟩

/-- `XwCustomSlotFiller._extract_single_pass_info`. -/
def extractSinglePassInfo (r : XwRecord) (satelliteName : String) : SinglePassInfo :=
  ⟨satelliteName, strOpt (recStartTime r), strOpt (recEndTime r)⟩

/-- The three fixed buckets of `_parse_anomalies`. -/
structure AnomalyBuckets where
  multiPass : List MultiPassInfo
  singlePass : List SinglePassInfo
  multiSat : List MultiSatInfo
deriving DecidableEq, Inhabited

/-- The placeholder note of the multi-satellite bucket. -/
def xwNote : String := "多颗星异常分类参数提取后期再扩展实现"

/-- The `while` loop of `_parse_anomalies`, with explicit fuel: `none`
models non-termination (an iteration that does not advance the index
consumes fuel without progress, so no fuel suffices).  Each branch of
the `for key, value in record.items()` body ends in `break`, so only
the first item of the record is read; an empty record repeats the
iteration at the same index. -/
def parseAnomaliesLoop (data : List XwRecord) : Nat → Nat → AnomalyBuckets → Option AnomalyBuckets
  | 0, _, _ => none
  | fuel + 1, i, acc =>
    if i < data.length then
      match data.getD i [] with
      | [] => parseAnomaliesLoop data fuel i acc
      | p :: _ =>
        match p.2.satellites with
        | none => parseAnomaliesLoop data fuel (i + 1) acc
        | some sats =>
          if sats.length = 1 then
            let satelliteName := sats.headD ""
            if classifySingleSatellite data i satelliteName then
              let endIdx := findSameSatelliteEnd data i satelliteName
              let info := extractMultiPassInfo data i endIdx satelliteName
              parseAnomaliesLoop data fuel (endIdx + 1)
                { acc with multiPass := acc.multiPass ++ [info] }
            else
              parseAnomaliesLoop data fuel (i + 1)
                { acc with singlePass :=
                    acc.singlePass ++ [extractSinglePassInfo (data.getD i []) satelliteName] }
          else if sats.length > 1 then
            parseAnomaliesLoop data fuel (i + 1)
              { acc with multiSat :=
                  acc.multiSat ++ [⟨sats, strOpt p.2.start_time, strOpt p.2.end_time, xwNote⟩] }
          else
            parseAnomaliesLoop data fuel (i + 1) acc
    else some acc

/-- `XwCustomSlotFiller._parse_anomalies`, with enough fuel for any
terminating batch (one unit per index value plus the final exit). -/
def parseAnomalies (data : List XwRecord) : Option AnomalyBuckets :=
  parseAnomaliesLoop data (data.length + 1) 0 ⟨[], [], []⟩

/-- A record of the documented shape: exactly one segment-name key. -/
def toXwRecord (r : String × SegValue) : XwRecord := [r]

/-- Continuation test of a run, in the words of the spec: the record
names exactly one satellite and it is the same satellite. -/
def sameSingle (satelliteName : String) (p : String × SegValue) : Bool :=
  match p.2.satellites with
  | some [n] => n == satelliteName
  | _ => false

/-- Classifier written from the words of the spec, for batches of
one-key records: a maximal run of length at least two of consecutive
records naming the same single satellite becomes one multi-pass entry
(first start time, last end time, run length as pass count); an
unabsorbed single-satellite record becomes a single-pass entry with its
own times; a record naming several satellites becomes a multi-satellite
entry; records naming no satellite are skipped. -/
def specClassify : List (String × SegValue) → AnomalyBuckets
  | [] => ⟨[], [], []⟩
  | r :: rest =>
    match r.2.satellites with
    | none => specClassify rest
    | some sats =>
      if sats.length = 1 then
        let satelliteName := sats.headD ""
        let run := rest.takeWhile (sameSingle satelliteName)
        if run.isEmpty then
          let b := specClassify rest
          { b with singlePass :=
              ⟨satelliteName, strOpt r.2.start_time, strOpt r.2.end_time⟩ :: b.singlePass }
        else
          let b := specClassify (rest.drop run.length)
          { b with multiPass :=
              ⟨satelliteName, strOpt r.2.start_time, strOpt ((run.getLastD r).2.end_time),
                run.length + 1⟩ :: b.multiPass }
      else if sats.length > 1 then
        let b := specClassify rest
        { b with multiSat :=
            ⟨sats, strOpt r.2.start_time, strOpt r.2.end_time, xwNote⟩ :: b.multiSat }
      else specClassify rest
termination_by l => l.length
decreasing_by
  all_goals simp [List.length_drop]
  all_goals omega

/-- Pointwise concatenation of bucket collections: what the
accumulating loop builds ahead of a recursive suffix. -/
def baccum (a b : AnomalyBuckets) : AnomalyBuckets :=
  ⟨a.multiPass ++ b.multiPass, a.singlePass ++ b.singlePass, a.multiSat ++ b.multiSat⟩

/-- The worked batch of the spec: three consecutive records naming
satellite A0015, one naming B0002, one naming both. -/
def xwExample : List (String × SegValue) :=
  [("异常时间段1", ⟨some "t1s", some "t1e", some ["A0015"]⟩),
   ("异常时间段2", ⟨some "t2s", some "t2e", some ["A0015"]⟩),
   ("异常时间段3", ⟨some "t3s", some "t3e", some ["A0015"]⟩),
   ("异常时间段4", ⟨some "t4s", some "t4e", some ["B0002"]⟩),
   ("异常时间段5", ⟨some "t5s", some "t5e", some ["A0015", "B0002"]⟩)]

/-- A sample keyword rule. -/
def kwEx : KwConf := ⟨["机票", "航班"], [], [], 1⟩

/-- An intent catalog with one intent holding two required slots. -/
def c3Cfg : IntentsConf := ⟨[⟨"it", [⟨"a", true⟩, ⟨"b", true⟩]⟩], none⟩

/-- A fused result whose slot `a` is already set. -/
def c3Res : IntentResult := ⟨"it", 1, "regex", [("a", "x")], [], []⟩

/-- The fold inside `pyMax`, with an explicit accumulator. -/
def pyMaxGo (best : IntentResult) (l : List IntentResult) : IntentResult :=
  l.foldl (fun b x => if b.confidence < x.confidence then x else b) best

/-- The maximum confidence of a result list, in the words of the spec
(`0` for the empty list, which the code never asks about). -/
def maxConf : List IntentResult → ℚ
  | [] => 0
  | [r] => r.confidence
  | r :: rest => max r.confidence (maxConf rest)

/-- A surviving result list with one pattern hit at confidence 0.9 and a
keyword hit at a higher confidence 1. -/
def c1Results : List IntentResult :=
  [⟨"a", 9/10, "regex", [], [], []⟩, ⟨"b", 1, "keyword", [], [], []⟩]

/-- Maximum of the scores of a list, folded from an initial value. -/
def foldMax (l : List (String × ℚ)) (a : ℚ) : ℚ :=
  l.foldl (fun m p => max m p.2) a

/-- The best score of a score table, floored at the 0 the accumulator
loop starts from. -/
def maxScore0 (scores : List (String × ℚ)) : ℚ := foldMax scores 0

/-- The score table built by `KeywordMatcher.parse`: every intent of the
rule set scored in order. -/
def kwScores (kwConf : List (String × KwConf)) (text : String) : List (String × ℚ) :=
  kwConf.map (fun p => (p.1, scoreIntent text p.2))

/-- A keyword rule set whose single intent has the falsy empty name. -/
def c6Conf : List (String × KwConf) := [("", ⟨["a"], [], [], 1⟩)]

/-- A keyword rule set with one ordinary intent. -/
def c6wConf : List (String × KwConf) := [("bk", ⟨["a"], [], [], 1⟩)]

/-- The result the keyword matcher returns on `c6wConf` and text "a". -/
def c6wRes : IntentResult :=
  ⟨"bk", 0.85, "keyword", [], [("scores", RawVal.scores [("bk", 0.85)])], []⟩

-- ===== end of definitions; theorems follow =====

example : (fsmParse (some "book_flight") "ok").isSome = true := by decide

example : fsmParse (some "book_flight") "a very long sentence here" = none := by decide

example : scoreIntent "订机票" kwEx = 1/2 := by
  have h1 : strContains (strLower "订机票") "机票" = true := by decide
  have h2 : strContains (strLower "订机票") "航班" = false := by decide
  norm_num [scoreIntent, kwEx, h1, h2, min_def]
theorem takeWhileLen {α : Type} (p : α → Bool) : ∀ l : List α, (l.takeWhile p).length ≤ l.length := by
  intro l
  induction l with
  | nil => simp
  | cons a t ih =>
    rw [List.takeWhile_cons]
    by_cases h : p a = true
    · simp [h]; omega
    · simp [h]

theorem takeWhileGetElem? {α : Type} (p : α → Bool) :
    ∀ (l : List α) (k : Nat), k < (l.takeWhile p).length → (l.takeWhile p)[k]? = l[k]? := by
  intro l
  induction l with
  | nil => simp
  | cons a t ih =>
    intro k hk
    rw [List.takeWhile_cons] at hk ⊢
    by_cases h : p a = true
    · simp only [h, if_true] at hk ⊢
      match k with
      | 0 => simp
      | k + 1 =>
        simp only [List.getElem?_cons_succ]
        exact ih k (by simpa using hk)
    · simp [h] at hk

theorem dropGetElem? {α : Type} : ∀ (l : List α) (n k : Nat), (l.drop n)[k]? = l[n + k]? := by
  intro l
  induction l with
  | nil => simp
  | cons a t ih =>
    intro n k
    match n with
    | 0 => simp
    | n + 1 =>
      simp only [List.drop_succ_cons]
      rw [ih n k]
      have hnk : n + 1 + k = (n + k) + 1 := by omega
      rw [hnk, List.getElem?_cons_succ]

theorem breaksRun_toXwRecord (satelliteName : String) (p : String × SegValue) :
    recordBreaksRun satelliteName (toXwRecord p) = !sameSingle satelliteName p := by
  simp only [recordBreaksRun, toXwRecord, List.any_cons, List.any_nil, Bool.or_false]
  unfold breaksRun sameSingle
  cases hs : p.2.satellites with
  | none => rfl
  | some sats =>
    match sats with
    | [] => rfl
    | [n] => simp [List.headD, bne]
    | a :: b :: t => rfl

theorem classify_map (l : List (String × SegValue)) (i : Nat) (satelliteName : String) :
    classifySingleSatellite (l.map toXwRecord) i satelliteName =
      (match l[i + 1]? with
       | some p => sameSingle satelliteName p
       | none => false) := by
  unfold classifySingleSatellite
  rw [List.getElem?_map]
  cases hp : l[i + 1]? with
  | none => rfl
  | some p =>
    simp only [Option.map_some']
    simp only [toXwRecord, List.any_cons, List.any_nil, Bool.or_false]
    unfold sameSingle
    cases hs : p.2.satellites with
    | none => rfl
    | some sats =>
      match sats with
      | [] => rfl
      | [n] => simp [List.headD]
      | a :: b :: t => simp [List.headD]

theorem findEndGo_spec (satelliteName : String) :
    ∀ (l : List (String × SegValue)) (j : Nat),
      findEndGo satelliteName (l.map toXwRecord) j =
        j + (l.takeWhile (sameSingle satelliteName)).length - 1 := by
  intro l
  induction l with
  | nil => intro j; simp [findEndGo]
  | cons p t ih =>
    intro j
    simp only [List.map_cons, findEndGo, breaksRun_toXwRecord]
    by_cases h : sameSingle satelliteName p = true
    · rw [if_neg (by simp [h]), ih (j + 1), List.takeWhile_cons, if_pos h, List.length_cons]
      omega
    · rw [if_pos (by simp [h]), List.takeWhile_cons, if_neg h]
      simp
theorem takeWhileGetLast {α : Type} (p : α → Bool) (l : List α) (d : α) (k : Nat)
    (hk : (l.takeWhile p).length = k + 1) :
    (l.takeWhile p).getLastD d = (l[k]?).getD d := by
  rw [List.getLastD_eq_getLast?, List.getLast?_eq_getElem?, hk]
  simp only [Nat.add_sub_cancel]
  rw [takeWhileGetElem? p l k (by omega)]

theorem classify_iff_run (l : List (String × SegValue)) (i : Nat) (satelliteName : String) :
    classifySingleSatellite (l.map toXwRecord) i satelliteName =
      !((l.drop (i + 1)).takeWhile (sameSingle satelliteName)).isEmpty := by
  rw [classify_map]
  by_cases hi : i + 1 < l.length
  · rw [List.getElem?_eq_getElem hi]
    rw [List.drop_eq_getElem_cons hi, List.takeWhile_cons]
    by_cases hs : sameSingle satelliteName l[i + 1] = true
    · simp [hs]
    · simp [hs]
  · have hnone : l[i + 1]? = none := by
      rw [List.getElem?_eq_none]
      omega
    rw [hnone]
    have hd : l.drop (i + 1) = [] := List.drop_eq_nil_of_le (by omega)
    rw [hd]
    simp

theorem parseLoop_spec :
    ∀ (fuel : Nat) (l : List (String × SegValue)) (i : Nat) (acc : AnomalyBuckets),
      l.length - i < fuel →
      parseAnomaliesLoop (l.map toXwRecord) fuel i acc =
        some (baccum acc (specClassify (l.drop i))) := by
  intro fuel
  induction fuel with
  | zero => intro l i acc h; omega
  | succ f ih =>
    intro l i acc h
    by_cases hi : i < l.length
    case neg =>
      have hdrop : l.drop i = [] := List.drop_eq_nil_of_le (by omega)
      simp only [parseAnomaliesLoop, List.length_map]
      rw [if_neg hi, hdrop]
      simp [specClassify, baccum]
    case pos =>
      have hget : (l.map toXwRecord).getD i [] = [l[i]] := by
        simp [List.getD_eq_getElem?_getD, List.getElem?_map, List.getElem?_eq_getElem hi,
          toXwRecord]
      simp only [parseAnomaliesLoop, List.length_map]
      rw [if_pos hi, hget, List.drop_eq_getElem_cons hi]
      dsimp only
      cases hsat : l[i].2.satellites with
      | none =>
        rw [ih l (i + 1) acc (by omega)]
        simp only [specClassify, hsat]
      | some sats =>
        dsimp only
        by_cases hlen1 : sats.length = 1
        · rw [if_pos hlen1]
          simp only [specClassify, hsat]
          rw [if_pos hlen1]
          by_cases hcl :
              classifySingleSatellite (l.map toXwRecord) i (sats.headD "") = true
          · -- multi-pass run
            have hrun := hcl
            rw [classify_iff_run] at hrun
            have hrunne :
                ((l.drop (i + 1)).takeWhile (sameSingle (sats.headD ""))).isEmpty = false := by
              cases hh : ((l.drop (i + 1)).takeWhile (sameSingle (sats.headD ""))).isEmpty
              · rfl
              · rw [hh] at hrun; simp at hrun
            have hrl1 : 1 ≤ ((l.drop (i + 1)).takeWhile (sameSingle (sats.headD ""))).length := by
              cases hq : (l.drop (i + 1)).takeWhile (sameSingle (sats.headD "")) with
              | nil => rw [hq] at hrunne; simp at hrunne
              | cons a t => simp [hq]
            have hrlle :
                ((l.drop (i + 1)).takeWhile (sameSingle (sats.headD ""))).length ≤
                  l.length - (i + 1) := by
              have h1 := takeWhileLen (sameSingle (sats.headD "")) (l.drop (i + 1))
              simpa using h1
            rw [if_pos hcl]
            have hend : findSameSatelliteEnd (l.map toXwRecord) i (sats.headD "") =
                i + ((l.drop (i + 1)).takeWhile (sameSingle (sats.headD ""))).length := by
              unfold findSameSatelliteEnd
              rw [← List.map_drop, findEndGo_spec]
              omega
            rw [hend]
            rw [ih l (i + ((l.drop (i + 1)).takeWhile (sameSingle (sats.headD ""))).length + 1)
              _ (by omega)]
            rw [if_neg (by rw [hrunne]; simp)]
            -- align the recursion arguments
            have hidx : (l.drop (i + 1)).drop
                ((l.drop (i + 1)).takeWhile (sameSingle (sats.headD ""))).length =
                l.drop (i + ((l.drop (i + 1)).takeWhile (sameSingle (sats.headD ""))).length + 1) := by
              rw [List.drop_drop]
              congr 1
              omega
            rw [hidx]
            -- align the emitted entry
            have hlast : (((l.drop (i + 1)).takeWhile (sameSingle (sats.headD ""))).getLastD l[i]) =
                l[i + ((l.drop (i + 1)).takeWhile (sameSingle (sats.headD ""))).length] := by
              rw [takeWhileGetLast (sameSingle (sats.headD "")) (l.drop (i + 1)) l[i]
                (((l.drop (i + 1)).takeWhile (sameSingle (sats.headD ""))).length - 1)
                (by omega)]
              rw [dropGetElem?]
              have hb : i + 1 +
                  (((l.drop (i + 1)).takeWhile (sameSingle (sats.headD ""))).length - 1) =
                  i + ((l.drop (i + 1)).takeWhile (sameSingle (sats.headD ""))).length := by
                omega
              rw [hb, List.getElem?_eq_getElem (by omega)]
              rfl
            rw [hlast]
            have hbound : i + ((l.drop (i + 1)).takeWhile (sameSingle (sats.headD ""))).length <
                l.length := by omega
            have hgetEnd : (l.map toXwRecord).getD
                (i + ((l.drop (i + 1)).takeWhile (sameSingle (sats.headD ""))).length) [] =
                [l[i + ((l.drop (i + 1)).takeWhile (sameSingle (sats.headD ""))).length]] := by
              rw [List.getD_eq_getElem?_getD, List.getElem?_map, List.getElem?_eq_getElem hbound]
              rfl
            simp only [extractMultiPassInfo, hget, hgetEnd, recStartTime, recEndTime, baccum]
            simp [List.append_assoc]
            try omega
          · -- isolated single record
            have hrun := hcl
            rw [classify_iff_run] at hrun
            have hrune :
                ((l.drop (i + 1)).takeWhile (sameSingle (sats.headD ""))).isEmpty = true := by
              cases hh : ((l.drop (i + 1)).takeWhile (sameSingle (sats.headD ""))).isEmpty
              · rw [hh] at hrun; simp at hrun
              · rfl
            rw [if_neg hcl, if_pos hrune]
            rw [ih l (i + 1) _ (by omega)]
            simp only [extractSinglePassInfo, hget, recStartTime, recEndTime, baccum]
            simp [List.append_assoc]
        · rw [if_neg hlen1]
          simp only [specClassify, hsat]
          rw [if_neg hlen1]
          by_cases hlen2 : sats.length > 1
          · rw [if_pos hlen2, if_pos hlen2]
            rw [ih l (i + 1) _ (by omega)]
            simp only [baccum]
            simp [List.append_assoc]
          · rw [if_neg hlen2, if_neg hlen2]
            rw [ih l (i + 1) acc (by omega)]

theorem findEndGo_ge (satelliteName : String) :
    ∀ (l : List XwRecord) (j : Nat), j - 1 ≤ findEndGo satelliteName l j := by
  intro l
  induction l with
  | nil => intro j; simp [findEndGo]
  | cons r t ih =>
    intro j
    rw [findEndGo]
    by_cases hb : recordBreaksRun satelliteName r = true
    · rw [if_pos hb]
    · rw [if_neg hb]
      have hj := ih (j + 1)
      omega

theorem parseLoop_total :
    ∀ (fuel : Nat) (data : List XwRecord) (i : Nat) (acc : AnomalyBuckets),
      (∀ r ∈ data, r ≠ []) → data.length - i < fuel →
      (parseAnomaliesLoop data fuel i acc).isSome = true := by
  intro fuel
  induction fuel with
  | zero => intro data i acc hne h; omega
  | succ f ih =>
    intro data i acc hne h
    by_cases hi : i < data.length
    case neg =>
      simp only [parseAnomaliesLoop]
      rw [if_neg hi]
      rfl
    case pos =>
      have hgd : data.getD i [] = data[i] := by
        rw [List.getD_eq_getElem?_getD, List.getElem?_eq_getElem hi]
        rfl
      have hne' : data[i] ≠ [] := hne _ (List.getElem_mem hi)
      simp only [parseAnomaliesLoop]
      rw [if_pos hi, hgd]
      cases hrec : data[i] with
      | nil => exact absurd hrec hne'
      | cons p rest' =>
        dsimp only
        cases hps : p.2.satellites with
        | none => exact ih data (i + 1) acc hne (by omega)
        | some sats =>
          dsimp only
          by_cases hlen1 : sats.length = 1
          · rw [if_pos hlen1]
            by_cases hcl : classifySingleSatellite data i (sats.headD "") = true
            · rw [if_pos hcl]
              have hge : i ≤ findSameSatelliteEnd data i (sats.headD "") := by
                have hg := findEndGo_ge (sats.headD "") (data.drop (i + 1)) (i + 1)
                unfold findSameSatelliteEnd
                omega
              exact ih data _ _ hne (by omega)
            · rw [if_neg hcl]
              exact ih data (i + 1) _ hne (by omega)
          · rw [if_neg hlen1]
            by_cases hlen2 : sats.length > 1
            · rw [if_pos hlen2]
              exact ih data (i + 1) _ hne (by omega)
            · rw [if_neg hlen2]
              exact ih data (i + 1) acc hne (by omega)

/-- Claim C2: on every ordered batch of records of the documented shape
(one segment-name key mapping to start time, end time and satellites),
the anomaly classifier agrees with the run-length specification
`specClassify`: every maximal run of at least two consecutive records
naming the same single satellite yields exactly one multi-pass entry
with the first start time, the last end time and the run length as pass
count; an unabsorbed single-satellite record yields one single-pass
entry with its own times; a record naming several satellites yields one
multi-satellite entry with the name list; records naming no satellite
are skipped; runs break exactly on a different satellite, a satellite
count other than one, or no satellites.  In particular the worked
five-record batch of the spec produces exactly the three stated
entries. -/
theorem claimC2 :
    (∀ l : List (String × SegValue),
      parseAnomalies (l.map toXwRecord) = some (specClassify l)) ∧
    parseAnomalies (xwExample.map toXwRecord) =
      some ⟨[⟨"A0015", "t1s", "t3e", 3⟩], [⟨"B0002", "t4s", "t4e"⟩],
            [⟨["A0015", "B0002"], "t5s", "t5e", xwNote⟩]⟩ := by
  constructor
  · intro l
    unfold parseAnomalies
    rw [List.length_map]
    rw [parseLoop_spec (l.length + 1) l 0 ⟨[], [], []⟩ (by omega)]
    simp [baccum]
  · decide

/-- Claim C10: on a batch whose records are all non-empty mappings the
scan of `_parse_anomalies` terminates (every iteration advances the
index, so fuel one beyond the batch length returns a result), and the
hypothesis is necessary: on a batch holding an empty-mapping record the
index never advances, so no amount of fuel makes the loop return. -/
theorem claimC10 :
    (∀ data : List XwRecord, (∀ r ∈ data, r ≠ []) → (parseAnomalies data).isSome = true) ∧
    (∀ fuel acc, parseAnomaliesLoop [[]] fuel 0 acc = none) := by
  constructor
  · intro data hne
    unfold parseAnomalies
    exact parseLoop_total (data.length + 1) data 0 ⟨[], [], []⟩ hne (by omega)
  · intro fuel acc
    induction fuel with
    | zero => rfl
    | succ n ihf => simpa [parseAnomaliesLoop] using ihf

/-- Witness for C10 at a concrete one-record batch. -/
theorem claimC10_witness :
    (parseAnomalies [[(("seg1" : String), (⟨some "a", some "b", none⟩ : SegValue))]]).isSome = true :=
  claimC10.1 _ (by decide)
theorem dlookup_append_absent (m : List (String × String)) (k v : String)
    (h : dlookup m k = none) : dlookup (m ++ [(k, v)]) k = some v := by
  induction m with
  | nil => simp [dlookup]
  | cons p t ih =>
    by_cases hp : (p.1 == k) = true
    · simp [dlookup, List.find?_cons, hp] at h
    · simp only [dlookup, List.cons_append, List.find?_cons, hp] at h ⊢
      exact ih h

/-- Claim C7 (amended): with a non-empty `last_intent` in context and a
text whose stripped length is under 10, the continuation recognizer
returns the last intent at confidence 0.4 tagged as a continuation
guess; with no last intent, an empty-string last intent, or a stripped
length of at least 10, it returns none. -/
theorem claimC7 (lastIntent : Option String) (text : String) :
    (∀ s, lastIntent = some s → s ≠ "" → (strStrip text).length < 10 →
      fsmParse lastIntent text =
        some { intent := s, confidence := 2/5, recognizer := "fsm",
               slots := [], raw_matches := [("source", RawVal.str "last_intent")],
               metadata := [("fsm_reason", "continue_last_intent")] }) ∧
    ((lastIntent = none ∨ lastIntent = some "" ∨ 10 ≤ (strStrip text).length) →
      fsmParse lastIntent text = none) := by
  constructor
  · intro s hs hne hlen
    subst hs
    simp only [fsmParse]
    rw [if_pos ⟨hne, hlen⟩]
  · intro hcase
    cases lastIntent with
    | none => rfl
    | some li =>
      rcases hcase with h | h | h
      · exact absurd h (by simp)
      · have hli : li = "" := by injection h
        subst hli
        simp [fsmParse]
      · simp only [fsmParse]
        rw [if_neg]
        intro hco
        exact absurd hco.2 (by omega)

/-- Counterexample for C7 as stated: a text of length 12 whose stripped
length is 2 still yields the continuation result, although the claim
demands none for texts of length at least 10; and a last intent set to
the empty string yields none, although the claim demands the result. -/
theorem claimC7_cex :
    (fsmParse (some "book_flight") "ok          ").isSome = true ∧
    ("ok          ").length = 12 ∧
    fsmParse (some "") "ok" = none := by
  refine ⟨by decide, by decide, by decide⟩

/-- Witness for C7 at concrete inputs. -/
theorem claimC7_witness :
    fsmParse (some "book_flight") "ok" =
      some { intent := "book_flight", confidence := 2/5, recognizer := "fsm",
             slots := [], raw_matches := [("source", RawVal.str "last_intent")],
             metadata := [("fsm_reason", "continue_last_intent")] } ∧
    fsmParse none "hello" = none :=
  ⟨(claimC7 (some "book_flight") "ok").1 "book_flight" rfl (by decide) (by decide),
   (claimC7 none "hello").2 (Or.inl rfl)⟩

/-- Claim C8: a recognizer that raises is excluded from fusion, and the
whole call computes the same well-formed result as without it; the
embedding is a total function, modelling that `process()` never
raises. -/
theorem claimC8 (cfg : IntentsConf) (slotPatterns : List (String × List String))
    (search : SearchFn) (llm : Option LlmFn) (pre post : List RecOutcome) (text : String) :
    runRecognizers (pre ++ RecOutcome.raised :: post) = runRecognizers (pre ++ post) ∧
    processModel cfg slotPatterns search llm (pre ++ RecOutcome.raised :: post) text =
      processModel cfg slotPatterns search llm (pre ++ post) text := by
  have hrun : runRecognizers (pre ++ RecOutcome.raised :: post) =
      runRecognizers (pre ++ post) := by
    simp [runRecognizers, List.filterMap_append, List.filterMap_cons]
  exact ⟨hrun, by unfold processModel; rw [hrun]⟩

theorem fillSlots_fields (cfg : IntentsConf) (slotPatterns : List (String × List String))
    (search : SearchFn) (llm : Option LlmFn) (result : IntentResult) (text : String) :
    (fillSlots cfg slotPatterns search llm result text).intent = result.intent ∧
    (fillSlots cfg slotPatterns search llm result text).confidence = result.confidence ∧
    (fillSlots cfg slotPatterns search llm result text).metadata = result.metadata ∧
    (fillSlots cfg slotPatterns search llm result text).recognizer = result.recognizer := by
  unfold fillSlots
  by_cases hc : (getIntentSlots cfg result.intent).isEmpty = true
  · simp [hc]
  · simp [hc]

/-- Claim C5: when no recognizer produces a result, the whole pipeline
returns the unknown-intent sentinel (the configured name, defaulting to
"unknown") with confidence 0 and `metadata.reason = "no_valid_result"`,
and slot filling does not disturb those fields. -/
theorem claimC5 (cfg : IntentsConf) (slotPatterns : List (String × List String))
    (search : SearchFn) (llm : Option LlmFn) (outcomes : List RecOutcome) (text : String)
    (h : outcomes.all (fun o =>
      match o with
      | RecOutcome.ok _ => false
      | _ => true) = true) :
    (processModel cfg slotPatterns search llm outcomes text).intent =
      getUnknownIntentName cfg ∧
    (processModel cfg slotPatterns search llm outcomes text).confidence = 0 ∧
    dlookup (processModel cfg slotPatterns search llm outcomes text).metadata "reason" =
      some "no_valid_result" ∧
    getUnknownIntentName cfg = cfg.unknown_intent.getD "unknown" := by
  have hrr : runRecognizers outcomes = [] := by
    unfold runRecognizers
    rw [List.filterMap_eq_nil_iff]
    intro o ho
    have hx := (List.all_eq_true.1 h) o ho
    cases o with
    | ok r => simp at hx
    | noResult => rfl
    | timeout => rfl
    | raised => rfl
  have hfuse : fuseResults cfg (runRecognizers outcomes) =
      buildUnknownResult cfg "no_valid_result" := by
    rw [hrr]
    simp [fuseResults]
  have hf := fillSlots_fields cfg slotPatterns search llm
    (buildUnknownResult cfg "no_valid_result") text
  unfold processModel
  rw [hfuse]
  refine ⟨?_, ?_, ?_, rfl⟩
  · rw [hf.1]; rfl
  · rw [hf.2.1]; rfl
  · rw [hf.2.2.1]
    rfl

/-- Witness for C5 at a concrete configuration and outcome list. -/
theorem claimC5_witness :
    ([RecOutcome.noResult, RecOutcome.timeout].all (fun o =>
      match o with
      | RecOutcome.ok _ => false
      | _ => true) = true) ∧
    (processModel ⟨[], none⟩ [] (fun _ _ => none) none
      [RecOutcome.noResult, RecOutcome.timeout] "hi").intent = "unknown" :=
  ⟨by decide,
   (claimC5 ⟨[], none⟩ [] (fun _ _ => none) none
     [RecOutcome.noResult, RecOutcome.timeout] "hi" (by decide)).1⟩
theorem dlookup_mapReplace (m : List (String × String)) (k v k' : String) (h : k' ≠ k) :
    dlookup (m.map (fun p => if p.1 == k then (p.1, v) else p)) k' = dlookup m k' := by
  induction m with
  | nil => rfl
  | cons p t ih =>
    have hfst : (if (p.1 == k) = true then (p.1, v) else p).1 = p.1 := by
      by_cases hq : (p.1 == k) = true <;> simp [hq]
    by_cases hp : (p.1 == k') = true
    · have hpk : (p.1 == k) = false := by
        rw [beq_eq_false_iff_ne]
        intro he
        exact h ((beq_iff_eq.1 hp).symm.trans he)
      simp only [dlookup, List.map_cons, List.find?_cons, hpk, if_false]
      simp [hp]
    · simp only [dlookup, List.map_cons, List.find?_cons, hfst, hp]
      simp only [dlookup] at ih
      exact ih

theorem dlookup_append_one (m : List (String × String)) (k v k' : String) (h : k' ≠ k) :
    dlookup (m ++ [(k, v)]) k' = dlookup m k' := by
  induction m with
  | nil =>
    have hk : (k == k') = false := by
      rw [beq_eq_false_iff_ne]
      exact fun he => h he.symm
    simp [dlookup, List.find?_cons, hk]
  | cons p t ih =>
    by_cases hp : (p.1 == k') = true
    · simp only [dlookup, List.cons_append, List.find?_cons, hp]
    · simp only [dlookup, List.cons_append, List.find?_cons, hp]
      simp only [dlookup] at ih
      exact ih

theorem dlookup_dinsert_ne (m : List (String × String)) (k v k' : String) (h : k' ≠ k) :
    dlookup (dinsert m k v) k' = dlookup m k' := by
  unfold dinsert
  by_cases hs : (dlookup m k).isSome = true
  · rw [if_pos hs]
    exact dlookup_mapReplace m k v k' h
  · rw [if_neg hs]
    exact dlookup_append_one m k v k' h

theorem dlookup_none_keys (m : List (String × String)) (k : String)
    (h : dlookup m k = none) : ∀ p ∈ m, p.1 ≠ k := by
  induction m with
  | nil => intro p hp; cases hp
  | cons q t ih =>
    intro p hp
    by_cases hq : (q.1 == k) = true
    · simp [dlookup, List.find?_cons, hq] at h
    · simp only [dlookup, List.find?_cons, hq] at h
      cases hp with
      | head => exact fun he => hq (beq_iff_eq.2 he)
      | tail _ hm => exact ih h p hm

theorem dlookup_dupdate_absent (m news : List (String × String)) (k : String)
    (h : dlookup news k = none) : dlookup (dupdate m news) k = dlookup m k := by
  induction news generalizing m with
  | nil => rfl
  | cons q t ih =>
    have hq : q.1 ≠ k := dlookup_none_keys (q :: t) k h q (List.mem_cons_self q t)
    have ht : dlookup t k = none := by
      have hqb : (q.1 == k) = false := by
        rw [beq_eq_false_iff_ne]; exact hq
      simpa [dlookup, List.find?_cons, hqb] using h
    unfold dupdate
    simp only [List.foldl_cons]
    have := ih (dinsert m q.1 q.2) ht
    unfold dupdate at this
    rw [this]
    exact dlookup_dinsert_ne m q.1 q.2 k (fun he => hq he.symm)

theorem regexFillStep_preserve (slotPatterns : List (String × List String)) (search : SearchFn)
    (text : String) (slots : List (String × String)) (sd : SlotDef) (k v : String)
    (hk : dlookup slots k = some v) :
    dlookup (regexFillStep slotPatterns search text slots sd) k = some v := by
  unfold regexFillStep
  by_cases h1 : sd.name = ""
  · rw [if_pos h1]; exact hk
  · rw [if_neg h1]
    by_cases h2 : (dlookup slots sd.name).isSome = true
    · rw [if_pos h2]; exact hk
    · rw [if_neg h2]
      have hne : k ≠ sd.name := by
        intro he
        rw [← he] at h2
        exact h2 (by rw [hk]; rfl)
      cases (plookup slotPatterns sd.name).findSome? (fun p => search p text) with
      | none => exact hk
      | some mres =>
        dsimp only
        cases dlookup mres.groups sd.name with
        | none =>
          dsimp only
          rw [dlookup_dinsert_ne slots sd.name mres.whole k hne]
          exact hk
        | some w =>
          dsimp only
          rw [dlookup_dinsert_ne slots sd.name w k hne]
          exact hk

theorem regexFold_preserve (slotPatterns : List (String × List String)) (search : SearchFn)
    (text : String) (slotsDef : List SlotDef) (slots : List (String × String)) (k v : String)
    (hk : dlookup slots k = some v) :
    dlookup (slotsDef.foldl (regexFillStep slotPatterns search text) slots) k = some v := by
  induction slotsDef generalizing slots with
  | nil => exact hk
  | cons sd t ih =>
    simp only [List.foldl_cons]
    exact ih _ (regexFillStep_preserve slotPatterns search text slots sd k v hk)

theorem llmPass_preserve (llm : Option LlmFn) (slotsDef : List SlotDef)
    (text intentName : String) (slots1 : List (String × String)) (k v : String)
    (hk : dlookup slots1 k = some v)
    (hllm : ∀ f, llm = some f → ∀ out, f text intentName slots1 = some out →
      dlookup out k = none) :
    dlookup (llmPass llm slotsDef text intentName slots1) k = some v := by
  unfold llmPass
  cases llm with
  | none => exact hk
  | some f =>
    dsimp only
    by_cases hm : ((slotsDef.filter
        (fun sd => sd.required && (dlookup slots1 sd.name).isNone)).isEmpty) = true
    · rw [if_pos hm]; exact hk
    · rw [if_neg hm]
      cases hout : f text intentName slots1 with
      | none => exact hk
      | some out =>
        dsimp only
        rw [dlookup_dupdate_absent slots1 out k (hllm f rfl out hout)]
        exact hk

/-- Claim C3 (amended): a slot key already present on the fused result is
never overwritten by the regex extraction pass; the LLM merge preserves
it provided the mapping the LLM returns does not itself contain that
key.  (When the returned mapping does contain an existing key,
`dict.update` overwrites it — see the counterexample.) -/
theorem claimC3 (cfg : IntentsConf) (slotPatterns : List (String × List String))
    (search : SearchFn) (llm : Option LlmFn) (result : IntentResult) (text : String)
    (k v : String) (hk : dlookup result.slots k = some v)
    (hllm : ∀ f, llm = some f → ∀ s out, f text result.intent s = some out →
      dlookup out k = none) :
    dlookup (fillSlots cfg slotPatterns search llm result text).slots k = some v := by
  unfold fillSlots
  by_cases hc : (getIntentSlots cfg result.intent).isEmpty = true
  · simp only [hc, if_true]
    exact hk
  · simp only [hc, if_false]
    exact llmPass_preserve llm _ text result.intent _ k v
      (regexFold_preserve slotPatterns search text _ result.slots k v hk)
      (fun f hf out hout => hllm f hf _ out hout)

/-- Counterexample for C3 as stated: with slot `a` already set to `x`
and an LLM filler returning `a = y` for the still-missing required slot
pass, `dict.update` overwrites the existing value. -/
theorem claimC3_cex :
    dlookup (fillSlots c3Cfg [] (fun _ _ => none)
      (some (fun _ _ _ => some [("a", "y")])) c3Res "text").slots "a" = some "y" ∧
    dlookup c3Res.slots "a" = some "x" := by
  refine ⟨by decide, by decide⟩

/-- Witness for C3 at a concrete input with no LLM filler configured. -/
theorem claimC3_witness :
    dlookup (fillSlots c3Cfg [] (fun _ _ => none) none c3Res "text").slots "a" = some "x" :=
  claimC3 c3Cfg [] (fun _ _ => none) none c3Res "text" "a" "x" (by decide)
    (by intro f hf; cases hf)
theorem loadJson_ok (files : List (String × FileContent))
    (hok : ∀ p ∈ files, p.2 ≠ FileContent.malformed) (fn : String) :
    ∃ v, loadJson (some files) fn = Except.ok v ∧ (flookup files fn = none → v = []) := by
  unfold loadJson
  dsimp only
  cases hfl : flookup files fn with
  | none => exact ⟨[], rfl, fun _ => rfl⟩
  | some fc =>
    cases fc with
    | malformed =>
      exfalso
      unfold flookup at hfl
      cases hfind : files.find? (fun p => p.1 == fn) with
      | none => rw [hfind] at hfl; simp at hfl
      | some p =>
        rw [hfind] at hfl
        have hmem := List.mem_of_find?_eq_some hfind
        apply hok p hmem
        simpa using hfl
    | valid v => exact ⟨v, rfl, by intro hcon; simp at hcon⟩

theorem cacheFold_ok (files : List (String × FileContent))
    (hok : ∀ p ∈ files, p.2 ≠ FileContent.malformed) :
    ∀ (fl : List (String × FileContent)) (acc : List (String × List (String × String))),
      ∃ c, cacheFold files acc fl = Except.ok c := by
  intro fl
  induction fl with
  | nil => intro acc; exact ⟨acc, rfl⟩
  | cons q t ih =>
    intro acc
    obtain ⟨v, hv, _⟩ := loadJson_ok files hok q.1
    obtain ⟨c, hc⟩ := ih (acc ++ [(q.1, v)])
    refine ⟨c, ?_⟩
    unfold cacheFold
    rw [List.foldlM_cons]
    simp only [hv, bind, Except.bind]
    unfold cacheFold at hc
    exact hc

/-- Claim C9 (amended): a missing configuration file or a missing
configuration directory yields an empty rule set with a warning and is
never fatal to engine construction, but a malformed (unparseable) JSON
file makes `json.load` raise and the error propagates out of
construction — see the counterexample. -/
theorem claimC9 (files : List (String × FileContent))
    (hok : ∀ p ∈ files, p.2 ≠ FileContent.malformed) :
    (∃ st, loadAll (some files) = Except.ok st ∧
      (flookup files "intents.json" = none → st.intents = []) ∧
      (flookup files "keywords.json" = none → st.keywords = []) ∧
      (flookup files "regex_patterns.json" = none → st.regex_patterns = [])) ∧
    loadAll none = Except.ok ⟨[], [], [], []⟩ := by
  constructor
  · obtain ⟨v1, h1, h1e⟩ := loadJson_ok files hok "intents.json"
    obtain ⟨v2, h2, h2e⟩ := loadJson_ok files hok "keywords.json"
    obtain ⟨v3, h3, h3e⟩ := loadJson_ok files hok "regex_patterns.json"
    obtain ⟨c, hc⟩ := cacheFold_ok files hok files []
    refine ⟨⟨v1, v2, v3, c⟩, ?_, fun h => h1e h, fun h => h2e h, fun h => h3e h⟩
    unfold loadAll
    simp only [h1, h2, h3, bind, Except.bind]
    rw [hc]
  · rfl

/-- Counterexample for C9 as stated: a directory whose `intents.json`
exists but is malformed makes rule loading raise, so engine
construction fails. -/
theorem claimC9_cex :
    loadAll (some [("intents.json", FileContent.malformed)]) = Except.error () := by
  rfl

/-- Witness for C9 at a concrete directory listing. -/
theorem claimC9_witness :
    (loadAll (some [("keywords.json", FileContent.valid [("k", "v")])])).isOk = true := by
  obtain ⟨⟨st, hst, _, _, _⟩, _⟩ :=
    claimC9 [("keywords.json", FileContent.valid [("k", "v")])] (by decide)
  rw [hst]
  rfl
theorem pyMax_eq_go (r : IntentResult) (rest : List IntentResult) :
    pyMax (r :: rest) = pyMaxGo r rest := rfl

theorem pyMaxGo_cons (b x : IntentResult) (t : List IntentResult) :
    pyMaxGo b (x :: t) = pyMaxGo (if b.confidence < x.confidence then x else b) t := by
  unfold pyMaxGo
  rw [List.foldl_cons]

theorem pyMaxGo_mem : ∀ (l : List IntentResult) (b : IntentResult), pyMaxGo b l ∈ b :: l := by
  intro l
  induction l with
  | nil => intro b; exact List.mem_cons_self _ _
  | cons x t ih =>
    intro b
    rw [pyMaxGo_cons]
    by_cases h : b.confidence < x.confidence
    · rw [if_pos h]
      exact List.mem_cons_of_mem b (ih x)
    · rw [if_neg h]
      rcases List.mem_cons.1 (ih b) with h1 | h1
      · rw [h1]; exact List.mem_cons_self _ _
      · exact List.mem_cons_of_mem b (List.mem_cons_of_mem x h1)

theorem pyMaxGo_le : ∀ (l : List IntentResult) (b x : IntentResult),
    x ∈ b :: l → x.confidence ≤ (pyMaxGo b l).confidence := by
  intro l
  induction l with
  | nil =>
    intro b x hx
    rcases List.mem_cons.1 hx with h | h
    · rw [h]; exact le_refl _
    · cases h
  | cons y t ih =>
    intro b x hx
    rw [pyMaxGo_cons]
    have hb : b.confidence ≤ (if b.confidence < y.confidence then y else b).confidence := by
      by_cases h : b.confidence < y.confidence
      · rw [if_pos h]; exact le_of_lt h
      · rw [if_neg h]
    have hy : y.confidence ≤ (if b.confidence < y.confidence then y else b).confidence := by
      by_cases h : b.confidence < y.confidence
      · rw [if_pos h]
      · rw [if_neg h]; exact not_lt.1 h
    have hhead : ((if b.confidence < y.confidence then y else b)).confidence ≤
        (pyMaxGo (if b.confidence < y.confidence then y else b) t).confidence :=
      ih _ _ (List.mem_cons_self _ _)
    rcases List.mem_cons.1 hx with h | h
    · rw [h]; exact le_trans hb hhead
    · rcases List.mem_cons.1 h with h2 | h2
      · rw [h2]; exact le_trans hy hhead
      · exact ih _ x (List.mem_cons_of_mem _ h2)

theorem maxConf_go : ∀ (t : List IntentResult) (b : IntentResult), t ≠ [] →
    (pyMaxGo b t).confidence = max b.confidence (maxConf t) := by
  intro t
  induction t with
  | nil => intro b h; exact absurd rfl h
  | cons x t ih =>
    intro b _
    rw [pyMaxGo_cons]
    have hbx : ((if b.confidence < x.confidence then x else b)).confidence =
        max b.confidence x.confidence := by
      by_cases h : b.confidence < x.confidence
      · rw [if_pos h, max_eq_right (le_of_lt h)]
      · rw [if_neg h, max_eq_left (not_lt.1 h)]
    cases t with
    | nil =>
      show ((if b.confidence < x.confidence then x else b)).confidence = _
      rw [hbx]
      rfl
    | cons z u =>
      rw [ih _ (by simp), hbx, max_assoc]
      rfl

theorem maxConf_cons_go (b : IntentResult) (l : List IntentResult) :
    maxConf (b :: l) = (pyMaxGo b l).confidence := by
  cases l with
  | nil => rfl
  | cons x t =>
    rw [maxConf_go (x :: t) b (by simp)]
    rfl

theorem pyMaxGo_find? : ∀ (l : List IntentResult) (b : IntentResult),
    (b :: l).find? (fun r => decide ((pyMaxGo b l).confidence ≤ r.confidence)) =
      some (pyMaxGo b l) := by
  intro l
  induction l with
  | nil =>
    intro b
    simp [pyMaxGo, List.find?_cons]
  | cons x t ih =>
    intro b
    by_cases h : b.confidence < x.confidence
    · have hgo : pyMaxGo b (x :: t) = pyMaxGo x t := by rw [pyMaxGo_cons, if_pos h]
      rw [hgo]
      have hle : x.confidence ≤ (pyMaxGo x t).confidence :=
        pyMaxGo_le t x x (List.mem_cons_self _ _)
      have hbf : ¬ ((pyMaxGo x t).confidence ≤ b.confidence) := by
        intro hc
        exact absurd (lt_of_lt_of_le h (le_trans hle hc)) (lt_irrefl _)
      rw [List.find?_cons]
      simp only [decide_eq_false hbf]
      exact ih x
    · have hgo : pyMaxGo b (x :: t) = pyMaxGo b t := by rw [pyMaxGo_cons, if_neg h]
      rw [hgo]
      by_cases hb : (pyMaxGo b t).confidence ≤ b.confidence
      · have hIH := ih b
        rw [List.find?_cons] at hIH
        simp only [decide_eq_true hb] at hIH
        rw [List.find?_cons]
        simp only [decide_eq_true hb]
        exact hIH
      · have hx : ¬ ((pyMaxGo b t).confidence ≤ x.confidence) :=
          fun hc => hb (le_trans hc (not_lt.1 h))
        have hIH := ih b
        rw [List.find?_cons] at hIH
        simp only [decide_eq_false hb] at hIH
        rw [List.find?_cons]
        simp only [decide_eq_false hb]
        rw [List.find?_cons]
        simp only [decide_eq_false hx]
        exact hIH
/-- Claim C1: among surviving results, if any pattern-sourced (regex)
result has confidence at least 0.8, fusion returns the highest-confidence
regex result regardless of any other confidence, tagged
`fusion_reason = "regex_confidence_over_0.8"`; otherwise, on a non-empty
list, fusion returns the first result attaining the highest confidence
overall, tagged `"max_confidence"`.  Surviving recognizer results never
carry a `fusion_reason` key (no recognizer sets one), stated here as the
hypothesis on `metadata`. -/
theorem claimC1 (cfg : IntentsConf) (results : List IntentResult)
    (hmeta : ∀ r ∈ results, dlookup r.metadata "fusion_reason" = none) :
    ((∃ r ∈ results, r.recognizer = "regex" ∧ (4/5 : ℚ) ≤ r.confidence) →
      ∃ best,
        (results.filter (fun r => r.recognizer == "regex")).find?
          (fun r => decide (maxConf (results.filter (fun r => r.recognizer == "regex")) ≤
            r.confidence)) = some best ∧
        best.recognizer = "regex" ∧ (4/5 : ℚ) ≤ best.confidence ∧
        (∀ r ∈ results, r.recognizer = "regex" → r.confidence ≤ best.confidence) ∧
        fuseResults cfg results =
          { best with metadata := best.metadata ++ [("fusion_reason", "regex_confidence_over_0.8")] } ∧
        dlookup (fuseResults cfg results).metadata "fusion_reason" =
          some "regex_confidence_over_0.8") ∧
    (results ≠ [] →
      (∀ r ∈ results, r.recognizer = "regex" → r.confidence < 4/5) →
      ∃ best,
        results.find? (fun r => decide (maxConf results ≤ r.confidence)) = some best ∧
        (∀ r ∈ results, r.confidence ≤ best.confidence) ∧
        fuseResults cfg results =
          { best with metadata := best.metadata ++ [("fusion_reason", "max_confidence")] } ∧
        dlookup (fuseResults cfg results).metadata "fusion_reason" = some "max_confidence") := by
  constructor
  · rintro ⟨r, hrmem, hrrec, hrconf⟩
    have hrl : r ∈ results.filter (fun r => r.recognizer == "regex") :=
      List.mem_filter.2 ⟨hrmem, by rw [hrrec]; exact beq_self_eq_true _⟩
    cases hfl : results.filter (fun r => r.recognizer == "regex") with
    | nil => rw [hfl] at hrl; cases hrl
    | cons h0 t0 =>
      rw [hfl] at hrl
      have hne : results ≠ [] := by
        intro he
        rw [he] at hrmem
        cases hrmem
      have hie : results.isEmpty = false := by
        cases results with
        | nil => exact absurd rfl hne
        | cons a b => rfl
      have hbmemf : pyMaxGo h0 t0 ∈ results.filter (fun r => r.recognizer == "regex") := by
        rw [hfl]; exact pyMaxGo_mem t0 h0
      have hbmem : pyMaxGo h0 t0 ∈ results := List.mem_of_mem_filter hbmemf
      have hbrec : ((pyMaxGo h0 t0).recognizer == "regex") = true :=
        (List.mem_filter.1 hbmemf).2
      have hbconf : (4/5 : ℚ) ≤ (pyMaxGo h0 t0).confidence :=
        le_trans hrconf (pyMaxGo_le t0 h0 r hrl)
      refine ⟨pyMaxGo h0 t0, ?_, beq_iff_eq.1 hbrec, hbconf, ?_, ?_, ?_⟩
      · rw [maxConf_cons_go]
        exact pyMaxGo_find? t0 h0
      · intro q hq hqrec
        have : q ∈ results.filter (fun r => r.recognizer == "regex") :=
          List.mem_filter.2 ⟨hq, by rw [hqrec]; exact beq_self_eq_true _⟩
        rw [hfl] at this
        exact pyMaxGo_le t0 h0 q this
      · unfold fuseResults
        simp only [hie, Bool.false_eq_true, if_false, hfl, List.isEmpty_cons, pyMax_eq_go]
        rw [if_pos ⟨by simp, hbconf⟩]
        unfold dsetdefault
        rw [hmeta _ hbmem]
        rfl
      · unfold fuseResults
        simp only [hie, Bool.false_eq_true, if_false, hfl, List.isEmpty_cons, pyMax_eq_go]
        rw [if_pos ⟨by simp, hbconf⟩]
        unfold dsetdefault
        rw [hmeta _ hbmem]
        simp only []
        exact dlookup_append_absent _ _ _ (hmeta _ hbmem)
  · intro hne hlt
    obtain ⟨r0, rs, hres⟩ : ∃ r0 rs, results = r0 :: rs := by
      cases results with
      | nil => exact absurd rfl hne
      | cons a b => exact ⟨a, b, rfl⟩
    subst hres
    have hcond : ¬ (¬ ((r0 :: rs).filter (fun r => r.recognizer == "regex")).isEmpty = true ∧
        (4/5 : ℚ) ≤ (pyMax ((r0 :: rs).filter (fun r => r.recognizer == "regex"))).confidence) := by
      rintro ⟨hno, hge⟩
      cases hfl : (r0 :: rs).filter (fun r => r.recognizer == "regex") with
      | nil => rw [hfl] at hno; exact hno rfl
      | cons h0 t0 =>
        rw [hfl, pyMax_eq_go] at hge
        have hm := pyMaxGo_mem t0 h0
        rw [← hfl] at hm
        have hmm : pyMaxGo h0 t0 ∈ r0 :: rs := List.mem_of_mem_filter hm
        have hmr : ((pyMaxGo h0 t0).recognizer == "regex") = true :=
          (List.mem_filter.1 hm).2
        exact absurd (lt_of_le_of_lt hge (hlt _ hmm (beq_iff_eq.1 hmr))) (lt_irrefl _)
    have hbmem : pyMaxGo r0 rs ∈ r0 :: rs := pyMaxGo_mem rs r0
    refine ⟨pyMaxGo r0 rs, ?_, ?_, ?_, ?_⟩
    · rw [maxConf_cons_go]
      exact pyMaxGo_find? rs r0
    · intro q hq
      exact pyMaxGo_le rs r0 q hq
    · unfold fuseResults
      rw [if_neg (by simp), if_neg hcond, pyMax_eq_go]
      unfold dsetdefault
      simp only [hmeta _ hbmem, Option.isSome_none, Bool.false_eq_true, if_false]
    · unfold fuseResults
      rw [if_neg (by simp), if_neg hcond, pyMax_eq_go]
      unfold dsetdefault
      simp only [hmeta _ hbmem, Option.isSome_none, Bool.false_eq_true, if_false]
      exact dlookup_append_absent _ _ _ (hmeta _ hbmem)

/-- Witness for C1: with a regex result at 0.9 and a keyword result at
1.0, fusion still tags the regex winner. -/
theorem claimC1_witness :
    dlookup (fuseResults ⟨[], none⟩ c1Results).metadata "fusion_reason" =
      some "regex_confidence_over_0.8" := by
  obtain ⟨best, h1, h2, h3, h4, h5, h6⟩ :=
    (claimC1 ⟨[], none⟩ c1Results (by decide)).1
      ⟨⟨"a", 9/10, "regex", [], [], []⟩, by simp [c1Results], rfl, by norm_num⟩
  exact h6
theorem kwFoldlScores (text : String) : ∀ (l : List (String × KwConf)) (acc : List (String × ℚ)),
    l.foldl (fun acc p => acc ++ [(p.1, scoreIntent text p.2)]) acc = acc ++ kwScores l text := by
  intro l
  induction l with
  | nil => intro acc; simp [kwScores]
  | cons q t ih =>
    intro acc
    simp only [List.foldl_cons, ih, kwScores, List.map_cons]
    simp

theorem scoreIntent_le (text : String) (conf : KwConf) : scoreIntent text conf ≤ 0.85 := by
  unfold scoreIntent
  by_cases h1 : conf.exclude_keywords.any (fun kw => strContains (strLower text) kw) = true
  · simp only [h1, if_true]; norm_num
  · simp only [h1, if_false]
    by_cases h2 : conf.must_keywords.any (fun kw => !strContains (strLower text) kw) = true
    · simp only [h2, if_true]; norm_num
    · simp only [h2, if_false]
      by_cases h3 : conf.keywords.isEmpty = true
      · simp only [h3, if_true]; norm_num
      · simp only [h3, if_false]
        by_cases h4 : ((conf.keywords.filter
            (fun kw => strContains (strLower text) kw)).length : ℚ) = 0
        · simp only [h4, if_pos rfl]; norm_num
        · simp only [if_neg h4]
          exact min_le_right _ _

theorem foldMax_ge_init : ∀ (l : List (String × ℚ)) (a : ℚ), a ≤ foldMax l a := by
  intro l
  induction l with
  | nil => intro a; exact le_refl a
  | cons p t ih =>
    intro a
    calc a ≤ max a p.2 := le_max_left _ _
    _ ≤ foldMax t (max a p.2) := ih _
    _ = foldMax (p :: t) a := rfl

theorem foldMax_ge_mem : ∀ (l : List (String × ℚ)) (a : ℚ) (p : String × ℚ),
    p ∈ l → p.2 ≤ foldMax l a := by
  intro l
  induction l with
  | nil => intro a p hp; cases hp
  | cons q t ih =>
    intro a p hp
    rcases List.mem_cons.1 hp with h | h
    · rw [h]
      calc q.2 ≤ max a q.2 := le_max_right _ _
      _ ≤ foldMax t (max a q.2) := foldMax_ge_init _ _
      _ = foldMax (q :: t) a := rfl
    · exact ih (max a q.2) p h

theorem foldMax_const : ∀ (l : List (String × ℚ)) (a : ℚ),
    (∀ p ∈ l, p.2 ≤ a) → foldMax l a = a := by
  intro l
  induction l with
  | nil => intro a _; rfl
  | cons q t ih =>
    intro a h
    show foldMax t (max a q.2) = a
    rw [max_eq_left (h q (List.mem_cons_self _ _))]
    exact ih a (fun p hp => h p (List.mem_cons_of_mem _ hp))

theorem foldMax_le : ∀ (l : List (String × ℚ)) (a c : ℚ),
    (∀ p ∈ l, p.2 ≤ c) → a ≤ c → foldMax l a ≤ c := by
  intro l
  induction l with
  | nil => intro a c _ ha; exact ha
  | cons q t ih =>
    intro a c h ha
    show foldMax t (max a q.2) ≤ c
    exact ih _ c (fun p hp => h p (List.mem_cons_of_mem _ hp))
      (max_le ha (h q (List.mem_cons_self _ _)))

theorem selLoop_cons (p : String × ℚ) (t : List (String × ℚ)) (st : Option String × ℚ) :
    selLoop (p :: t) st = selLoop t (if st.2 < p.2 then (some p.1, p.2) else st) := by
  unfold selLoop
  rw [List.foldl_cons]

theorem selLoop_snd : ∀ (l : List (String × ℚ)) (st : Option String × ℚ),
    (selLoop l st).2 = foldMax l st.2 := by
  intro l
  induction l with
  | nil => intro st; rfl
  | cons p t ih =>
    intro st
    rw [selLoop_cons]
    show _ = foldMax t (max st.2 p.2)
    by_cases h : st.2 < p.2
    · rw [if_pos h, ih, max_eq_right (le_of_lt h)]
    · rw [if_neg h, ih, max_eq_left (not_lt.1 h)]

theorem selLoop_noupdate : ∀ (l : List (String × ℚ)) (bi : Option String) (bc : ℚ),
    (∀ p ∈ l, p.2 ≤ bc) → selLoop l (bi, bc) = (bi, bc) := by
  intro l
  induction l with
  | nil => intro bi bc _; rfl
  | cons q t ih =>
    intro bi bc h
    rw [selLoop_cons, if_neg (not_lt.2 (h q (List.mem_cons_self _ _)))]
    exact ih bi bc (fun p hp => h p (List.mem_cons_of_mem _ hp))

theorem selLoop_fst_change : ∀ (l : List (String × ℚ)) (bi : Option String) (bc : ℚ),
    (selLoop l (bi, bc)).1 ≠ bi → ∃ p ∈ l, bc < p.2 := by
  intro l
  induction l with
  | nil => intro bi bc h; exact absurd rfl h
  | cons q t ih =>
    intro bi bc h
    by_cases hq : bc < q.2
    · exact ⟨q, List.mem_cons_self _ _, hq⟩
    · rw [selLoop_cons, if_neg hq] at h
      obtain ⟨p, hp, hlt⟩ := ih bi bc h
      exact ⟨p, List.mem_cons_of_mem _ hp, hlt⟩

theorem selLoop_found : ∀ (l : List (String × ℚ)) (bi : Option String) (bc : ℚ),
    (∃ p ∈ l, bc < p.2) →
    ∃ q, l.find? (fun p => decide (foldMax l bc ≤ p.2)) = some q ∧
      selLoop l (bi, bc) = (some q.1, q.2) := by
  intro l
  induction l with
  | nil => rintro bi bc ⟨p, hp, _⟩; cases hp
  | cons p0 t ih =>
    intro bi bc hex
    by_cases hc : bc < p0.2
    · have hM0 : foldMax (p0 :: t) bc = foldMax t p0.2 := by
        show foldMax t (max bc p0.2) = foldMax t p0.2
        rw [max_eq_right (le_of_lt hc)]
      by_cases hrest : ∃ q ∈ t, p0.2 < q.2
      · obtain ⟨q, hfq, hsel⟩ := ih (some p0.1) p0.2 hrest
        obtain ⟨q', hq', hgt⟩ := hrest
        have hpred : ¬ (foldMax t p0.2 ≤ p0.2) :=
          not_le.2 (lt_of_lt_of_le hgt (foldMax_ge_mem t p0.2 q' hq'))
        refine ⟨q, ?_, ?_⟩
        · rw [hM0, List.find?_cons]
          simp only [decide_eq_false hpred]
          exact hfq
        · rw [selLoop_cons, if_pos hc]
          exact hsel
      · have hall : ∀ q ∈ t, q.2 ≤ p0.2 := by
          intro q hq
          by_contra hno
          exact hrest ⟨q, hq, not_le.1 hno⟩
        have hM : foldMax (p0 :: t) bc = p0.2 := by
          rw [hM0]
          exact foldMax_const t p0.2 hall
        refine ⟨p0, ?_, ?_⟩
        · rw [hM, List.find?_cons]
          simp only [decide_eq_true (le_refl p0.2)]
        · rw [selLoop_cons, if_pos hc]
          exact selLoop_noupdate t (some p0.1) p0.2 hall
    · obtain ⟨p, hp, hgt⟩ := hex
      have hpt : p ∈ t := by
        rcases List.mem_cons.1 hp with h | h
        · rw [h] at hgt; exact absurd hgt hc
        · exact h
      have hex' : ∃ q ∈ t, bc < q.2 := ⟨p, hpt, hgt⟩
      obtain ⟨q, hfq, hsel⟩ := ih bi bc hex'
      have hM : foldMax (p0 :: t) bc = foldMax t bc := by
        show foldMax t (max bc p0.2) = foldMax t bc
        rw [max_eq_left (not_lt.1 hc)]
      have hpred : ¬ (foldMax t bc ≤ p0.2) := by
        intro hle
        have h1 : bc < foldMax t bc := lt_of_lt_of_le hgt (foldMax_ge_mem t bc p hpt)
        exact absurd (lt_of_lt_of_le h1 hle) hc
      refine ⟨q, ?_, ?_⟩
      · rw [hM, List.find?_cons]
        simp only [decide_eq_false hpred]
        exact hfq
      · rw [selLoop_cons, if_neg hc]
        exact hsel

theorem selLoop_fst_none : ∀ (l : List (String × ℚ)) (bc : ℚ),
    (selLoop l (none, bc)).1 = none → ∀ p ∈ l, p.2 ≤ bc := by
  intro l bc hfst p hp
  by_contra hno
  obtain ⟨q, _, hsel⟩ := selLoop_found l none bc ⟨p, hp, not_le.1 hno⟩
  rw [hsel] at hfst
  cases hfst
/-- Claim C6 (amended): the keyword recognizer scores every intent by
the documented formula; when it returns a result, that result carries
the keyword tag, empty slots, the positive first-seen maximal score as
confidence, bounded by 0.85, and a non-empty intent name; it returns
none exactly when no intent scores above zero or when the best-scoring
intent has the falsy empty-string name (which the code treats as no
result). -/
theorem claimC6 (kwConf : List (String × KwConf)) (text : String) :
    (∀ conf : KwConf, scoreIntent text conf =
      (if conf.exclude_keywords.any (fun kw => strContains (strLower text) kw) then (0:ℚ)
       else if conf.must_keywords.any (fun kw => !strContains (strLower text) kw) then 0
       else min ((((conf.keywords.filter (fun kw => strContains (strLower text) kw)).length : ℚ) /
         (conf.keywords.length : ℚ)) * conf.weight) 0.85)) ∧
    (∀ r, keywordParse kwConf text = some r →
      r.recognizer = "keyword" ∧ r.slots = [] ∧
      0 < r.confidence ∧ r.confidence ≤ 0.85 ∧
      r.confidence = maxScore0 (kwScores kwConf text) ∧
      (∀ p ∈ kwScores kwConf text, p.2 ≤ r.confidence) ∧
      (kwScores kwConf text).find?
        (fun p => decide (maxScore0 (kwScores kwConf text) ≤ p.2)) =
          some (r.intent, r.confidence) ∧
      r.intent ≠ "") ∧
    (keywordParse kwConf text = none ↔
      (maxScore0 (kwScores kwConf text) ≤ 0 ∨
        ((kwScores kwConf text).find?
          (fun p => decide (maxScore0 (kwScores kwConf text) ≤ p.2))).map Prod.fst =
            some "")) := by
  refine ⟨?_, ?_, ?_⟩
  · intro conf
    unfold scoreIntent
    dsimp only
    by_cases h1 : conf.exclude_keywords.any (fun kw => strContains (strLower text) kw) = true
    · simp [h1]
    · by_cases h2 : conf.must_keywords.any (fun kw => !strContains (strLower text) kw) = true
      · simp [h1, h2]
      · by_cases h3 : conf.keywords.isEmpty = true
        · have hkeq : conf.keywords = [] := by
            cases hk : conf.keywords with
            | nil => rfl
            | cons a b => rw [hk] at h3; cases h3
          simp [h1, h2, hkeq]
          norm_num
        · by_cases h4 : ((conf.keywords.filter
              (fun kw => strContains (strLower text) kw)).length : ℚ) = 0
          · simp [h1, h2, h3, h4]
            norm_num
          · simp [h1, h2, h3, h4]
  · intro r hr
    unfold keywordParse at hr
    by_cases hkc : kwConf.isEmpty = true
    · rw [if_pos hkc] at hr; cases hr
    · rw [if_neg hkc, kwFoldlScores text kwConf [], List.nil_append] at hr
      dsimp only at hr
      cases hb1 : (selLoop (kwScores kwConf text) (none, 0)).1 with
      | none => rw [hb1] at hr; cases hr
      | some bi =>
        rw [hb1] at hr
        dsimp only at hr
        by_cases hbi : bi = ""
        · rw [if_pos hbi] at hr; cases hr
        · rw [if_neg hbi] at hr
          by_cases hle : (selLoop (kwScores kwConf text) (none, 0)).2 ≤ 0
          · rw [if_pos hle] at hr; cases hr
          · rw [if_neg hle] at hr
            have hreq := (Option.some.inj hr).symm
            subst hreq
            have hle85 : foldMax (kwScores kwConf text) 0 ≤ 0.85 := by
              apply foldMax_le
              · intro p hp
                obtain ⟨q, hq, hpe⟩ := List.mem_map.1 hp
                rw [← hpe]
                exact scoreIntent_le text q.2
              · norm_num
            have hne : (selLoop (kwScores kwConf text) (none, 0)).1 ≠ none := by
              rw [hb1]; simp
            obtain ⟨q, hfq, hsel⟩ := selLoop_found _ none 0 (selLoop_fst_change _ none 0 hne)
            have hq1 : q.1 = bi := by
              rw [hsel] at hb1
              exact Option.some.inj hb1
            have hq2 : (selLoop (kwScores kwConf text) (none, 0)).2 = q.2 := by rw [hsel]
            refine ⟨rfl, rfl, not_le.1 hle, ?_, ?_, ?_, ?_, hbi⟩
            · show (selLoop (kwScores kwConf text) (none, 0)).2 ≤ 0.85
              rw [selLoop_snd]
              exact hle85
            · show (selLoop (kwScores kwConf text) (none, 0)).2 = maxScore0 _
              rw [selLoop_snd]
              rfl
            · intro p hp
              show p.2 ≤ (selLoop (kwScores kwConf text) (none, 0)).2
              rw [selLoop_snd]
              exact foldMax_ge_mem _ _ p hp
            · show (kwScores kwConf text).find?
                  (fun p => decide (maxScore0 (kwScores kwConf text) ≤ p.2)) =
                some (bi, (selLoop (kwScores kwConf text) (none, 0)).2)
              unfold maxScore0
              rw [hq2, ← hq1]
              exact hfq
  · constructor
    · intro hnone
      unfold keywordParse at hnone
      by_cases hkc : kwConf.isEmpty = true
      · left
        have hke : kwConf = [] := by
          cases hk : kwConf with
          | nil => rfl
          | cons a b => rw [hk] at hkc; cases hkc
        rw [hke]
        simp [maxScore0, kwScores, foldMax]
      · rw [if_neg hkc, kwFoldlScores text kwConf [], List.nil_append] at hnone
        dsimp only at hnone
        cases hb1 : (selLoop (kwScores kwConf text) (none, 0)).1 with
        | none =>
          left
          have hall := selLoop_fst_none (kwScores kwConf text) 0 hb1
          show maxScore0 _ ≤ 0
          unfold maxScore0
          rw [foldMax_const _ 0 hall]
        | some bi =>
          rw [hb1] at hnone
          dsimp only at hnone
          by_cases hbi : bi = ""
          · right
            have hne : (selLoop (kwScores kwConf text) (none, 0)).1 ≠ none := by
              rw [hb1]; simp
            obtain ⟨q, hfq, hsel⟩ := selLoop_found _ none 0 (selLoop_fst_change _ none 0 hne)
            have hq1 : q.1 = bi := by
              rw [hsel] at hb1
              exact Option.some.inj hb1
            unfold maxScore0
            rw [hfq]
            simp [hq1, hbi]
          · rw [if_neg hbi] at hnone
            by_cases hle : (selLoop (kwScores kwConf text) (none, 0)).2 ≤ 0
            · exfalso
              have hne : (selLoop (kwScores kwConf text) (none, 0)).1 ≠ none := by
                rw [hb1]; simp
              obtain ⟨p, hp, hpos⟩ := selLoop_fst_change _ none 0 hne
              have hgt : (0:ℚ) < (selLoop (kwScores kwConf text) (none, 0)).2 := by
                rw [selLoop_snd]
                exact lt_of_lt_of_le hpos (foldMax_ge_mem _ _ p hp)
              exact absurd hle (not_le.2 hgt)
            · rw [if_neg hle] at hnone
              cases hnone
    · intro hor
      unfold keywordParse
      by_cases hkc : kwConf.isEmpty = true
      · rw [if_pos hkc]
      · rw [if_neg hkc, kwFoldlScores text kwConf [], List.nil_append]
        dsimp only
        by_cases hex : ∃ p ∈ kwScores kwConf text, 0 < p.2
        · obtain ⟨q, hfq, hsel⟩ := selLoop_found _ none 0 hex
          rw [hsel]
          dsimp only
          rcases hor with hle | hname
          · exfalso
            obtain ⟨p, hp, hpos⟩ := hex
            have hgt : (0:ℚ) < maxScore0 (kwScores kwConf text) := by
              unfold maxScore0
              exact lt_of_lt_of_le hpos (foldMax_ge_mem _ _ p hp)
            exact absurd hle (not_le.2 hgt)
          · have hq1 : q.1 = "" := by
              unfold maxScore0 at hname
              rw [hfq] at hname
              exact Option.some.inj (by simpa using hname)
            rw [if_pos hq1]
        · have hall : ∀ p ∈ kwScores kwConf text, p.2 ≤ 0 := by
            intro p hp
            by_contra hno
            exact hex ⟨p, hp, not_le.1 hno⟩
          rw [selLoop_noupdate _ none 0 hall]

theorem c6ScoreEval : scoreIntent "a" ⟨["a"], [], [], 1⟩ = 0.85 := by
  have h1 : strContains (strLower "a") "a" = true := by decide
  unfold scoreIntent
  simp only [List.any_nil, List.filter_cons, h1, List.filter_nil, List.isEmpty_cons,
    List.length_cons, List.length_nil, if_false, Bool.false_eq_true]
  norm_num [min_def]
theorem c6wParseEval : keywordParse c6wConf "a" = some c6wRes := by
  have hne : c6wConf.isEmpty = false := rfl
  unfold keywordParse
  rw [if_neg (by rw [hne]; simp), kwFoldlScores "a" c6wConf [], List.nil_append]
  have hks : kwScores c6wConf "a" = [("bk", (0.85 : ℚ))] := by
    simp [kwScores, c6wConf, c6ScoreEval]
  rw [hks]
  dsimp only
  have hsl : selLoop [("bk", (0.85 : ℚ))] (none, 0) = (some "bk", 0.85) := by
    rw [selLoop_cons, if_pos (by norm_num)]
    rfl
  rw [hsl]
  dsimp only
  rw [if_neg (by simp), if_neg (by norm_num)]
  rfl

/-- Counterexample for C6 as stated: a rule set whose best-scoring
intent is named by the empty string scores strictly above zero, yet the
matcher returns none because the empty name is falsy in
`if not best_intent`. -/
theorem claimC6_cex :
    keywordParse c6Conf "a" = none ∧ (0:ℚ) < scoreIntent "a" ⟨["a"], [], [], 1⟩ := by
  constructor
  · have hne : c6Conf.isEmpty = false := rfl
    unfold keywordParse
    rw [if_neg (by rw [hne]; simp), kwFoldlScores "a" c6Conf [], List.nil_append]
    have hks : kwScores c6Conf "a" = [("", (0.85 : ℚ))] := by
      simp [kwScores, c6Conf, c6ScoreEval]
    rw [hks]
    dsimp only
    have hsl : selLoop [("", (0.85 : ℚ))] (none, 0) = (some "", 0.85) := by
      rw [selLoop_cons, if_pos (by norm_num)]
      rfl
    rw [hsl]
    rfl
  · rw [c6ScoreEval]
    norm_num

/-- Witness for C6 at a concrete rule set and text. -/
theorem claimC6_witness :
    keywordParse c6wConf "a" = some c6wRes ∧ c6wRes.recognizer = "keyword" ∧
    0 < c6wRes.confidence ∧ c6wRes.confidence ≤ 0.85 ∧ c6wRes.intent ≠ "" := by
  have hc := (claimC6 c6wConf "a").2.1 c6wRes c6wParseEval
  exact ⟨c6wParseEval, hc.1, hc.2.2.1, hc.2.2.2.1, hc.2.2.2.2.2.2.2⟩
